import Mathlib

set_option autoImplicit false

/-
Verification of the directory-summary merge pipeline in
client/bin/result_tools/utils.py (with key constants from utils_lib.py).

A summary entry is a Python dict holding the keys /S (ORIGINAL_SIZE_BYTES,
always present), /T (TRIMMED_SIZE_BYTES, optional), /C (COLLECTED_SIZE_BYTES,
optional) and /D (DIRS, present exactly for directories).  We embed an entry
as an inductive with a `file` and a `dir` constructor, and a summary (a dict
mapping names to entries) as an association list with unique keys, which is
what a Python dict is.  Python's in-place mutation becomes explicit state
passing; `copy.deepcopy` is the identity on pure values; a KeyError becomes
an `Except.error`.
-/

namespace ResultTools

/-- A node of a directory summary: a file entry carries /S plus optional
/T and /C; a directory entry additionally carries the /D children map. -/
inductive Entry : Type where
  | file (original : Nat) (trimmed : Option Nat) (collected : Option Nat)
  | dir (original : Nat) (trimmed : Option Nat) (collected : Option Nat)
        (children : List (String × Entry))
  deriving Repr

/-- A summary map: Python dict from names to entries. -/
abbrev EMap := List (String × Entry)

/-- The /S (ORIGINAL_SIZE_BYTES) field, always present. -/
def Entry.original : Entry → Nat
  | .file o _ _ => o
  | .dir o _ _ _ => o

/-- The optional /T (TRIMMED_SIZE_BYTES) field. -/
def Entry.trimmed : Entry → Option Nat
  | .file _ t _ => t
  | .dir _ t _ _ => t

/-- The optional /C (COLLECTED_SIZE_BYTES) field. -/
def Entry.collected : Entry → Option Nat
  | .file _ _ c => c
  | .dir _ _ c _ => c

/-- Python's `entry.get(TRIMMED_SIZE_BYTES, entry[ORIGINAL_SIZE_BYTES])`. -/
def trimmedFb (e : Entry) : Nat := e.trimmed.getD e.original

/-- Python's `entry.get(COLLECTED_SIZE_BYTES, entry.get(TRIMMED_SIZE_BYTES,
entry[ORIGINAL_SIZE_BYTES]))`. -/
def collectedFb (e : Entry) : Nat := e.collected.getD (trimmedFb e)

/-- Dict lookup `summary[name]` / `name in summary`. -/
def lookupE : EMap → String → Option Entry
  | [], _ => none
  | (m, e) :: rest, n => if m = n then some e else lookupE rest n

/-- Dict assignment `summary[name] = v`: replace the value when the key is
present, insert the key otherwise. -/
def setKey : EMap → String → Entry → EMap
  | [], n, v => [(n, v)]
  | (m, e) :: rest, n, v => if m = n then (n, v) :: rest else (m, e) :: setKey rest n v

/-- Dict membership test as a Bool, `name in summary`. -/
def keysHas : EMap → String → Bool
  | [], _ => false
  | (m, _) :: rest, n => (m == n) || keysHas rest n

/-- FILES_TO_IGNORE from utils.py: state files that may be deleted from test
results and are simply dropped from the summary. -/
def filesToIgnoreL : List String := ["control.autoserv.state"]

/-- Sum of the children's /S fields. -/
def sumOrig (m : EMap) : Nat := (m.map (fun p => p.2.original)).sum

/-- Sum of the children's /T fields, each falling back to /S when absent. -/
def sumTrimmedFb (m : EMap) : Nat := (m.map (fun p => trimmedFb p.2)).sum

/-- Sum of the children's /C fields, each falling back to /T then /S. -/
def sumCollectedFb (m : EMap) : Nat := (m.map (fun p => collectedFb p.2)).sum

/-- _update_sizes from utils.py: recompute a directory entry's three size
fields from its children (with the documented fallbacks); files are left
untouched. -/
def updateSizes : Entry → Entry
  | .file o t c => .file o t c
  | .dir _ _ _ ch => .dir (sumOrig ch) (some (sumTrimmedFb ch)) (some (sumCollectedFb ch)) ch

mutual

/-- One iteration of the `for name in summary_new` loop of _merge in
utils.py: reconcile the entry `newE` named `name` into the old summary.
The trailing `_update_sizes(summary_old[name])` of the loop body is a
no-op on file entries, so in the file branches below it is dropped; the
two `continue` statements return the old summary unchanged. -/
def mergeStep (old : EMap) (name : String) (newE : Entry) (isFinal : Bool) : EMap :=
  match lookupE old name with
  | none =>
    -- newly collected file or directory: deep-copied in, then sizes updated
    setKey old name (updateSizes newE)
  | some oldE =>
    match newE with
    | .dir _ _ _ newCh =>
      match oldE with
      | .file _ _ _ =>
        -- a file in the old summary is overwritten by a directory: force it
        -- to an empty directory (three sizes zeroed) before merging
        setKey old name (updateSizes (.dir 0 (some 0) (some 0) (mergeMaps [] newCh isFinal)))
      | .dir o t c och =>
        setKey old name (updateSizes (.dir o t c (mergeMaps och newCh isFinal)))
    | .file no nt nc =>
      match oldE with
      | .dir _ _ _ _ =>
        -- rsync cannot overwrite a directory with a file: skip the merge
        old
      | .file oo ot oc =>
        if no = oo then old
        else if isFinal = true ∧ nt.getD no = ot.getD oo then old
        else
          setKey old name
            (.file no (some (nt.getD no)) (some ((nc.getD (nt.getD no)) + (oc.getD (ot.getD oo)))))

/-- _merge from utils.py: fold every name of the new summary into the old
one (the Python function mutates `summary_old` in place and returns None;
here the mutated map is returned). -/
def mergeMaps (old : EMap) (news : EMap) (isFinal : Bool) : EMap :=
  match news with
  | [] => old
  | (n, e) :: rest => mergeMaps (mergeStep old n e isFinal) rest isFinal

end

mutual

/-- One iteration of the `for name in summary_old.keys()` loop of
_delete_missing_entries in utils.py, for the entry `e` named `n`.
Returns `none` when the entry is deleted from the map, and an error where
the source raises a KeyError (an old directory aligned with a new file:
`summary_new[name][DIRS]` with no /D key). -/
def deleteEntryStep (n : String) (e : Entry) (news : EMap) : Except Unit (Option Entry) :=
  match lookupE news n with
  | none =>
    match e with
    | .dir o t c ch =>
      -- missing directory: treat every descendant as deleted, then update
      match deleteMissingEntries ch [] with
      | .error er => .error er
      | .ok ch' => .ok (some (updateSizes (.dir o t c ch')))
    | .file o t c =>
      if n ∈ filesToIgnoreL then .ok none
      else
        -- record the collected size (if not set yet) before trimming to 0
        .ok (some (.file o (some 0) (if c.isNone then some (t.getD o) else c)))
  | some newE =>
    match e with
    | .dir o t c ch =>
      match newE with
      | .dir _ _ _ newCh =>
        match deleteMissingEntries ch newCh with
        | .error er => .error er
        | .ok ch' => .ok (some (updateSizes (.dir o t c ch')))
      | .file _ _ _ =>
        -- the source evaluates summary_new[name][DIRS]: KeyError on a file
        .error ()
    | .file _ _ _ => .ok (some e)

/-- _delete_missing_entries from utils.py: walk the old summary and
reconcile entries that no longer exist in the new one.  The trailing
`_update_sizes(summary_old)` of the source is applied to the name map
itself, not to an entry, and is a no-op because a map holds no /D key. -/
def deleteMissingEntries : EMap → EMap → Except Unit EMap
  | [], _ => .ok []
  | (n, e) :: rest, news =>
    match deleteEntryStep n e news with
    | .error er => .error er
    | .ok r =>
      match deleteMissingEntries rest news with
      | .error er => .error er
      | .ok rest' =>
        .ok (match r with
             | none => rest'
             | some e' => (n, e') :: rest')

end

/-- The fold of _merge over the historical summaries in merge_summaries
(utils.py lines 344-347): deep-copy the first summary and merge the rest
into it with the default is_final=False. -/
def historicalMerge (summaries : List EMap) : EMap :=
  match summaries with
  | [] => []
  | s :: rest => rest.foldl (fun acc s2 => mergeMaps acc s2 false) s

/-- merge_summaries from utils.py, over already-deserialized trees: fold
the historical summaries, read client_collected_bytes from the root's /C
(0 when there is no summary at all; a KeyError - root or /C missing -
becomes an error), then merge the live snapshot with is_final=True and run
the deletion pass.  File listing, mtime sorting and JSON I/O stay outside
the model: `summaries` is the list in mtime order and `live` is the
summary the builder produced for the live directory. -/
def mergeSummaries (summaries : List EMap) (live : EMap) : Except Unit (Nat × EMap) :=
  let merged := historicalMerge summaries
  let preTotal : Except Unit Nat :=
    if merged.isEmpty then .ok 0
    else
      match lookupE merged "" with
      | none => .error ()
      | some e =>
        match e.collected with
        | none => .error ()
        | some c => .ok c
  match preTotal with
  | .error er => .error er
  | .ok total =>
    match deleteMissingEntries (mergeMaps merged live true) live with
    | .error er => .error er
    | .ok final => .ok (total, final)

/-- A filesystem tree for the Snapshot Builder.  The model has no symbolic
links, so os.path.realpath is the identity and os.path.islink is always
false; directory children are kept in sorted name order, mirroring the
`sorted(os.listdir(path))` traversal of the source. -/
inductive FSNode : Type where
  | file (size : Nat)
  | dir (children : List (String × FSNode))
  deriving Repr

mutual

/-- get_dir_summary from utils.py (restricted to a link-free filesystem):
`path` is the list of name components, `st` is the all_dirs set of visited
canonical paths.  For a directory the /S field is accumulated over the
children, which equals sumOrig of the child entries.  Returns the entry
for the path (the value under `basename(path)` in the source's dict) plus
the updated all_dirs set. -/
def getDirSummary (path : List String) (st : List (List String)) :
    FSNode → Entry × List (List String)
  | .file sz => (.file sz none none, st)
  | .dir ch =>
    if path ∈ st then (.dir 0 none none [], st)
    else
      let r := getDirChildren path (path :: st) ch
      (.dir (sumOrig r.1) none none r.1, r.2)

/-- The `for f in sorted(os.listdir(path))` loop of get_dir_summary,
threading the all_dirs set left to right through the children. -/
def getDirChildren (path : List String) (st : List (List String)) :
    List (String × FSNode) → EMap × List (List String)
  | [] => ([], st)
  | (n, c) :: rest =>
    let r := getDirSummary (path ++ [n]) st c
    let r2 := getDirChildren path r.2 rest
    ((n, r.1) :: r2.1, r2.2)

end

/-- The error taxonomy of build_summary_json: the source raises IOError
for a missing path (NotFoundError in the specification's taxonomy) and
ValueError for a top-level file (InvalidInputError). -/
inductive BuildError : Type where
  | notFound
  | invalidInput
  deriving Repr, DecidableEq

/-- build_summary_json from utils.py: `target` is what the input path
resolves to (`none` when the path does not exist).  On a directory the
path is normalized to end with the separator, so the returned summary is
rooted at the empty-string key.  `st` is the all_dirs set of
get_dir_summary, a function-default mutable set the source shares across
calls within one process; it is threaded explicitly here and is empty at
process start. -/
def buildSummaryJson (target : Option FSNode) (st : List (List String)) :
    Except BuildError (EMap × List (List String)) :=
  match target with
  | none => .error .notFound
  | some (.file _) => .error .invalidInput
  | some (.dir ch) =>
    let r := getDirSummary [] st (.dir ch)
    .ok ([("", r.1)], r.2)

mutual

/-- The directory-sum invariant of the data model: every directory node's
/S equals the sum of its children's /S, and its /T and /C - read through
the documented fallback chains when absent - equal the sums of the
children's corresponding fallback values. -/
def wfB : Entry → Bool
  | .file _ _ _ => true
  | .dir o t c ch =>
    (o == sumOrig ch) && (t.getD o == sumTrimmedFb ch)
      && (c.getD (t.getD o) == sumCollectedFb ch) && wfMapB ch

/-- The directory-sum invariant for every entry of a summary map. -/
def wfMapB : EMap → Bool
  | [] => true
  | (_, e) :: rest => wfB e && wfMapB rest

end

mutual

/-- Canonical size view of an entry: every size field made explicit via
its documented fallback chain, recursively.  Two entries with equal views
agree on shape and on all three size readings at every node. -/
def viewEntry : Entry → Entry
  | .file o t c => .file o (some (t.getD o)) (some (c.getD (t.getD o)))
  | .dir o t c ch => .dir o (some (t.getD o)) (some (c.getD (t.getD o))) (viewMap ch)

/-- Canonical size view of a summary map. -/
def viewMap : EMap → EMap
  | [] => []
  | (n, e) :: rest => (n, viewEntry e) :: viewMap rest

end

mutual

/-- Keys are pairwise distinct at every level of an entry, as they are in
a Python dict. -/
def ndkAllE : Entry → Bool
  | .file _ _ _ => true
  | .dir _ _ _ ch => ndkAllM ch

/-- Keys are pairwise distinct at every level of a summary map. -/
def ndkAllM : EMap → Bool
  | [] => true
  | (n, e) :: rest => (!keysHas rest n) && ndkAllE e && ndkAllM rest

end

/-! Basic lemmas about the association-list dictionary operations. -/

theorem lookupE_setKey_self (m : EMap) (n : String) (v : Entry) :
    lookupE (setKey m n v) n = some v := by
  induction m with
  | nil => simp [setKey, lookupE]
  | cons p rest ih =>
    obtain ⟨k, e⟩ := p
    by_cases hk : k = n
    · subst hk; simp [setKey, lookupE]
    · simp [setKey, lookupE, hk, ih]

theorem lookupE_setKey_ne (m : EMap) (n n' : String) (v : Entry) (h : n' ≠ n) :
    lookupE (setKey m n v) n' = lookupE m n' := by
  have hn : n ≠ n' := Ne.symm h
  induction m with
  | nil => simp [setKey, lookupE, hn]
  | cons p rest ih =>
    obtain ⟨k, e⟩ := p
    by_cases hk : k = n
    · subst hk
      simp [setKey, lookupE, hn]
    · by_cases hk' : k = n'
      · subst hk'; simp [setKey, lookupE, hk]
      · simp [setKey, lookupE, hk, hk', ih]

theorem lookupE_mem {m : EMap} {n : String} {e : Entry} (h : lookupE m n = some e) :
    (n, e) ∈ m := by
  induction m with
  | nil => simp [lookupE] at h
  | cons p rest ih =>
    obtain ⟨k, v⟩ := p
    by_cases hk : k = n
    · subst hk
      simp [lookupE] at h
      simp [h]
    · simp [lookupE, hk] at h
      exact List.mem_cons_of_mem _ (ih h)

theorem lookupE_eq_none_of_not_mem_keys {m : EMap} {n : String}
    (h : n ∉ m.map Prod.fst) : lookupE m n = none := by
  induction m with
  | nil => simp [lookupE]
  | cons p rest ih =>
    obtain ⟨k, v⟩ := p
    rw [List.map_cons, List.mem_cons] at h
    push_neg at h
    have hk : k ≠ n := Ne.symm h.1
    simp [lookupE, hk, ih h.2]

theorem mem_keys_of_lookupE {m : EMap} {n : String} {e : Entry}
    (h : lookupE m n = some e) : n ∈ m.map Prod.fst := by
  have := lookupE_mem h
  exact List.mem_map.2 ⟨(n, e), this, rfl⟩

theorem lookupE_of_mem_nodup {m : EMap} {n : String} {e : Entry}
    (hnd : (m.map Prod.fst).Nodup) (h : (n, e) ∈ m) : lookupE m n = some e := by
  induction m with
  | nil => simp at h
  | cons p rest ih =>
    obtain ⟨k, v⟩ := p
    rw [List.map_cons, List.nodup_cons] at hnd
    rcases List.mem_cons.1 h with h1 | h2
    · obtain ⟨hk, hv⟩ := Prod.mk.injEq .. ▸ h1
      simp [lookupE, hk.symm, hv]
    · have hk : k ≠ n := by
        intro hkn; subst hkn
        exact hnd.1 (List.mem_map.2 ⟨(k, e), h2, rfl⟩)
      simp [lookupE, hk, ih hnd.2 h2]

/-! Frame lemmas for the merge: a step for one name never touches the
value stored under a different name. -/

theorem mergeStep_lookup_ne (old : EMap) (n : String) (e : Entry) (f : Bool)
    (n' : String) (h : n' ≠ n) :
    lookupE (mergeStep old n e f) n' = lookupE old n' := by
  rw [mergeStep]
  cases hlook : lookupE old n with
  | none => simp [hlook, lookupE_setKey_ne _ _ _ _ h]
  | some oldE =>
    cases e with
    | dir no nt nc nch =>
      cases oldE with
      | file _ _ _ => simp [hlook, lookupE_setKey_ne _ _ _ _ h]
      | dir o t c och => simp [hlook, lookupE_setKey_ne _ _ _ _ h]
    | file no nt nc =>
      cases oldE with
      | dir _ _ _ _ => simp [hlook]
      | file oo ot oc =>
        by_cases h1 : no = oo
        · simp [hlook, h1]
        · by_cases h2 : f = true ∧ nt.getD no = ot.getD oo
          · simp [hlook, h1, h2]
          · simp [hlook, h1, h2, lookupE_setKey_ne _ _ _ _ h]

theorem mergeMaps_lookup_frame (news : EMap) (old : EMap) (f : Bool) (n : String)
    (h : lookupE news n = none) :
    lookupE (mergeMaps old news f) n = lookupE old n := by
  induction news generalizing old with
  | nil => rw [mergeMaps]
  | cons p rest ih =>
    obtain ⟨k, e⟩ := p
    rw [mergeMaps]
    by_cases hk : k = n
    · subst hk; simp [lookupE] at h
    · simp [lookupE, hk] at h
      rw [ih _ h, mergeStep_lookup_ne _ _ _ _ _ (fun hh => hk hh.symm)]

/-- Lifting lemma: with distinct keys on the new side, the value the merge
leaves under a name is the value produced by that name's own merge step,
taken from a map whose binding for the name is the original one. -/
theorem lookup_mergeMaps_of_mem (news : EMap) (old : EMap) (f : Bool)
    (n : String) (e : Entry)
    (hnd : (news.map Prod.fst).Nodup) (h : lookupE news n = some e) :
    ∃ old', lookupE old' n = lookupE old n ∧
      lookupE (mergeMaps old news f) n = lookupE (mergeStep old' n e f) n := by
  induction news generalizing old with
  | nil => simp [lookupE] at h
  | cons p rest ih =>
    obtain ⟨k, e0⟩ := p
    rw [List.map_cons, List.nodup_cons] at hnd
    by_cases hk : k = n
    · subst hk
      simp [lookupE] at h
      subst h
      refine ⟨old, rfl, ?_⟩
      rw [mergeMaps]
      exact mergeMaps_lookup_frame rest _ f k (lookupE_eq_none_of_not_mem_keys hnd.1)
    · simp [lookupE, hk] at h
      obtain ⟨old', h1, h2⟩ := ih (mergeStep old k e0 f) hnd.2 h
      refine ⟨old', ?_, ?_⟩
      · rw [h1, mergeStep_lookup_ne _ _ _ _ _ (fun hh => hk hh.symm)]
      · rw [mergeMaps, h2]

/-- C2: when a name is a file on both sides of a merge, the original sizes
differ, and the is_final/equal-trimmed skip does not apply, the merged file
accumulates the collected sizes (old plus new, each read through the
collected-trimmed-original fallback), takes the new side's trimmed size,
and takes the new side's original size. -/
theorem merge_overwrite_accumulation
    (old news : EMap) (f : Bool) (name : String)
    (oo no : Nat) (ot oc nt nc : Option Nat)
    (hnd : (news.map Prod.fst).Nodup)
    (ho : lookupE old name = some (.file oo ot oc))
    (hn : lookupE news name = some (.file no nt nc))
    (hne : no ≠ oo)
    (hnf : ¬ (f = true ∧ nt.getD no = ot.getD oo)) :
    lookupE (mergeMaps old news f) name =
      some (.file no (some (trimmedFb (.file no nt nc)))
        (some (collectedFb (.file oo ot oc) + collectedFb (.file no nt nc)))) := by
  obtain ⟨old', h1, h2⟩ := lookup_mergeMaps_of_mem news old f name _ hnd hn
  rw [ho] at h1
  rw [h2]
  simp only [mergeStep, h1]
  rw [if_neg hne, if_neg hnf, lookupE_setKey_self]
  simp [trimmedFb, collectedFb, Entry.trimmed, Entry.collected, Entry.original, Nat.add_comm]

theorem merge_overwrite_accumulation_witness :
    lookupE (mergeMaps [("f", Entry.file 100 none (some 100))]
        [("f", Entry.file 50 none none)] false) "f" =
      some (.file 50 (some 50) (some 150)) := by
  have h := merge_overwrite_accumulation
    [("f", Entry.file 100 none (some 100))] [("f", Entry.file 50 none none)]
    false "f" 100 50 none (some 100) none none
    (by decide) rfl rfl (by decide) (by decide)
  simpa [trimmedFb, collectedFb, Entry.trimmed, Entry.collected, Entry.original] using h

/-- C4: in a final merge, when a name is a file on both sides with
different original sizes but equal trimmed sizes (each read with the
original-size fallback), the merge is a non-event: the old file keeps all
three of its size fields and no collected bytes are added. -/
theorem merge_final_equal_trimmed_skip
    (old news : EMap) (name : String)
    (oo no : Nat) (ot oc nt nc : Option Nat)
    (hnd : (news.map Prod.fst).Nodup)
    (ho : lookupE old name = some (.file oo ot oc))
    (hn : lookupE news name = some (.file no nt nc))
    (hne : no ≠ oo)
    (htr : trimmedFb (.file no nt nc) = trimmedFb (.file oo ot oc)) :
    lookupE (mergeMaps old news true) name = some (.file oo ot oc) := by
  obtain ⟨old', h1, h2⟩ := lookup_mergeMaps_of_mem news old true name _ hnd hn
  rw [ho] at h1
  have htr' : nt.getD no = ot.getD oo := by
    simpa [trimmedFb, Entry.trimmed, Entry.original] using htr
  rw [h2]
  simp only [mergeStep, h1]
  rw [if_neg hne, if_pos ⟨trivial, htr'⟩]
  exact h1

theorem merge_final_equal_trimmed_skip_witness :
    lookupE (mergeMaps [("f", Entry.file 100 (some 30) (some 100))]
        [("f", Entry.file 50 (some 30) none)] true) "f" =
      some (.file 100 (some 30) (some 100)) :=
  merge_final_equal_trimmed_skip
    [("f", Entry.file 100 (some 30) (some 100))] [("f", Entry.file 50 (some 30) none)]
    "f" 100 50 (some 30) (some 100) (some 30) none
    (by decide) rfl rfl (by decide) (by decide)

/-- C5: when a name is a file in the old tree but a directory in the new
tree, the old file is converted to an empty directory with zeroed sizes
before the new children are merged in, so the merged entry is a directory
whose three sizes are exactly the sums over the merged children - the old
file's sizes are discarded, not added. -/
theorem merge_dir_overwrites_file
    (old news : EMap) (f : Bool) (name : String)
    (fo : Nat) (ft fc : Option Nat) (no : Nat) (nt nc : Option Nat) (nch : EMap)
    (hnd : (news.map Prod.fst).Nodup)
    (ho : lookupE old name = some (.file fo ft fc))
    (hn : lookupE news name = some (.dir no nt nc nch)) :
    lookupE (mergeMaps old news f) name =
      some (.dir (sumOrig (mergeMaps [] nch f))
        (some (sumTrimmedFb (mergeMaps [] nch f)))
        (some (sumCollectedFb (mergeMaps [] nch f)))
        (mergeMaps [] nch f)) := by
  obtain ⟨old', h1, h2⟩ := lookup_mergeMaps_of_mem news old f name _ hnd hn
  rw [ho] at h1
  rw [h2]
  simp only [mergeStep, h1]
  rw [lookupE_setKey_self]
  simp [updateSizes]

theorem merge_dir_overwrites_file_witness :
    lookupE (mergeMaps [("x", Entry.file 10 none (some 10))]
        [("x", Entry.dir 5 none none [("y", Entry.file 5 none none)])] false) "x" =
      some (.dir 5 (some 5) (some 5) [("y", Entry.file 5 none none)]) := by
  have h := merge_dir_overwrites_file
    [("x", Entry.file 10 none (some 10))]
    [("x", Entry.dir 5 none none [("y", Entry.file 5 none none)])]
    false "x" 10 none (some 10) 5 none none [("y", Entry.file 5 none none)]
    (by decide) rfl rfl
  simpa using h

/-- C6: when a name is a directory in the old tree but a file in the new
tree, the merge skips the name entirely: the old directory entry, with its
whole subtree and all three size fields, is unchanged. -/
theorem merge_file_skips_dir
    (old news : EMap) (f : Bool) (name : String)
    (o : Nat) (t c : Option Nat) (och : EMap) (no : Nat) (nt nc : Option Nat)
    (hnd : (news.map Prod.fst).Nodup)
    (ho : lookupE old name = some (.dir o t c och))
    (hn : lookupE news name = some (.file no nt nc)) :
    lookupE (mergeMaps old news f) name = some (.dir o t c och) := by
  obtain ⟨old', h1, h2⟩ := lookup_mergeMaps_of_mem news old f name _ hnd hn
  rw [ho] at h1
  rw [h2]
  simp only [mergeStep, h1]

theorem merge_file_skips_dir_witness :
    lookupE (mergeMaps
        [("d", Entry.dir 7 (some 7) (some 7) [("k", Entry.file 7 none none)])]
        [("d", Entry.file 3 none none)] true) "d" =
      some (.dir 7 (some 7) (some 7) [("k", Entry.file 7 none none)]) :=
  merge_file_skips_dir
    [("d", Entry.dir 7 (some 7) (some 7) [("k", Entry.file 7 none none)])]
    [("d", Entry.file 3 none none)] true "d" 7 (some 7) (some 7)
    [("k", Entry.file 7 none none)] 3 none none
    (by decide) rfl rfl

/-! Lemmas about the deletion pass. -/

theorem delete_unchanged (m news : EMap)
    (h : ∀ p ∈ m, (∃ fo ft fc, p.2 = Entry.file fo ft fc) ∧ (lookupE news p.1).isSome) :
    deleteMissingEntries m news = .ok m := by
  induction m with
  | nil => rw [deleteMissingEntries]
  | cons p rest ih =>
    obtain ⟨k, e⟩ := p
    obtain ⟨⟨fo, ft, fc, hfe⟩, hl⟩ := h (k, e) (List.mem_cons_self _ _)
    obtain ⟨newE, hnewE⟩ := Option.isSome_iff_exists.1 hl
    have ihrest := ih (fun q hq => h q (List.mem_cons_of_mem _ hq))
    subst hfe
    rw [deleteMissingEntries, deleteEntryStep]
    simp only [hnewE, ihrest]

theorem delete_preserves_absent (m news : EMap) :
    ∀ m' n, deleteMissingEntries m news = .ok m' → lookupE m n = none →
      lookupE m' n = none := by
  induction m with
  | nil =>
    intro m' n hok hnone
    rw [deleteMissingEntries] at hok
    cases hok
    exact hnone
  | cons p rest ih =>
    intro m' n hok hnone
    obtain ⟨k, e⟩ := p
    by_cases hkn : k = n
    · subst hkn; simp [lookupE] at hnone
    · simp only [lookupE, if_neg hkn] at hnone
      rw [deleteMissingEntries] at hok
      cases hstep : deleteEntryStep k e news with
      | error er =>
        simp only [hstep] at hok
        exact Except.noConfusion hok
      | ok r =>
        simp only [hstep] at hok
        cases hrest : deleteMissingEntries rest news with
        | error er =>
          simp only [hrest] at hok
          exact Except.noConfusion hok
        | ok rest' =>
          simp only [hrest, Except.ok.injEq] at hok
          cases r with
          | none =>
            subst hok
            exact ih rest' n hrest hnone
          | some e' =>
            subst hok
            simp only [lookupE, if_neg hkn]
            exact ih rest' n hrest hnone

theorem delete_lookup_missing_file (m : EMap) (news : EMap) :
    ∀ m' name o t c, (m.map Prod.fst).Nodup →
      lookupE m name = some (.file o t c) → lookupE news name = none →
      deleteMissingEntries m news = .ok m' →
      (if name ∈ filesToIgnoreL then lookupE m' name = none
       else lookupE m' name =
         some (.file o (some 0) (if c.isNone then some (t.getD o) else c))) := by
  induction m with
  | nil => intro m' name o t c _ hlook _ _; simp [lookupE] at hlook
  | cons p rest ih =>
    intro m' name o t c hnd hlook hnews hok
    obtain ⟨k, e⟩ := p
    rw [List.map_cons, List.nodup_cons] at hnd
    rw [deleteMissingEntries] at hok
    by_cases hkn : k = name
    · subst hkn
      simp [lookupE] at hlook
      subst hlook
      rw [deleteEntryStep] at hok
      simp only [hnews] at hok
      have hrestnone : lookupE rest k = none :=
        lookupE_eq_none_of_not_mem_keys hnd.1
      by_cases hig : k ∈ filesToIgnoreL
      · simp only [if_pos hig] at hok ⊢
        cases hrest : deleteMissingEntries rest news with
        | error er =>
          simp only [hrest] at hok
          exact Except.noConfusion hok
        | ok rest' =>
          simp only [hrest, Except.ok.injEq] at hok
          subst hok
          exact delete_preserves_absent rest news rest' k hrest hrestnone
      · simp only [if_neg hig] at hok ⊢
        cases hrest : deleteMissingEntries rest news with
        | error er =>
          simp only [hrest] at hok
          exact Except.noConfusion hok
        | ok rest' =>
          simp only [hrest, Except.ok.injEq] at hok
          subst hok
          simp [lookupE]
    · simp only [lookupE, if_neg hkn] at hlook
      cases hstep : deleteEntryStep k e news with
      | error er =>
        simp only [hstep] at hok
        exact Except.noConfusion hok
      | ok r =>
        simp only [hstep] at hok
        cases hrest : deleteMissingEntries rest news with
        | error er =>
          simp only [hrest] at hok
          exact Except.noConfusion hok
        | ok rest' =>
          simp only [hrest, Except.ok.injEq] at hok
          have hres := ih rest' name o t c hnd.2 hlook hnews hrest
          cases r with
          | none => subst hok; exact hres
          | some e' =>
            subst hok
            by_cases hig : name ∈ filesToIgnoreL
            · simp only [if_pos hig] at hres ⊢
              simp only [lookupE, if_neg hkn]
              exact hres
            · simp only [if_neg hig] at hres ⊢
              simp only [lookupE, if_neg hkn]
              exact hres

theorem delete_sums_missing_file (m : EMap) (news : EMap) :
    ∀ m' name o t c, (m.map Prod.fst).Nodup →
      lookupE m name = some (.file o t c) → lookupE news name = none →
      name ∉ filesToIgnoreL →
      (∀ p ∈ m, p.1 ≠ name →
        (∃ fo ft fc, p.2 = Entry.file fo ft fc) ∧ (lookupE news p.1).isSome) →
      deleteMissingEntries m news = .ok m' →
      sumTrimmedFb m' + trimmedFb (.file o t c) = sumTrimmedFb m ∧
        sumCollectedFb m' = sumCollectedFb m := by
  induction m with
  | nil => intro m' name o t c _ hlook _ _ _ _; simp [lookupE] at hlook
  | cons p rest ih =>
    intro m' name o t c hnd hlook hnews hig hothers hok
    obtain ⟨k, e⟩ := p
    rw [List.map_cons, List.nodup_cons] at hnd
    rw [deleteMissingEntries] at hok
    by_cases hkn : k = name
    · subst hkn
      simp [lookupE] at hlook
      subst hlook
      rw [deleteEntryStep] at hok
      simp only [hnews, if_neg hig] at hok
      have hrest_eq : deleteMissingEntries rest news = .ok rest := by
        apply delete_unchanged
        intro q hq
        refine hothers q (List.mem_cons_of_mem _ hq) ?_
        intro hq1
        exact hnd.1 (hq1 ▸ List.mem_map.2 ⟨q, hq, rfl⟩)
      simp only [hrest_eq, Except.ok.injEq] at hok
      subst hok
      constructor
      · simp [sumTrimmedFb, trimmedFb, Entry.trimmed, Entry.original]
        omega
      · simp [sumCollectedFb, collectedFb, trimmedFb, Entry.trimmed, Entry.collected,
          Entry.original]
        cases c with
        | none => simp
        | some cv => simp
    · simp only [lookupE, if_neg hkn] at hlook
      obtain ⟨⟨fo, ft, fc, hfe⟩, hl⟩ :=
        hothers (k, e) (List.mem_cons_self _ _) hkn
      obtain ⟨newE, hnewE⟩ := Option.isSome_iff_exists.1 hl
      subst hfe
      rw [deleteEntryStep] at hok
      simp only [hnewE] at hok
      cases hrest : deleteMissingEntries rest news with
      | error er =>
        simp only [hrest] at hok
        exact Except.noConfusion hok
      | ok rest' =>
        simp only [hrest, Except.ok.injEq] at hok
        subst hok
        have hres := ih rest' name o t c hnd.2 hlook hnews hig
          (fun q hq hq1 => hothers q (List.mem_cons_of_mem _ hq) hq1) hrest
        constructor
        · simp only [sumTrimmedFb, List.map_cons, List.sum_cons] at hres ⊢
          omega
        · simp only [sumCollectedFb, List.map_cons, List.sum_cons] at hres ⊢
          omega

/-- C7: in the deletion pass, a file name present in the old summary but
absent from the new one is removed outright when it is on the
files-to-ignore allow-list; otherwise its collected size is set to its
last-known trimmed/original size when not already set and its trimmed
size is forced to 0, so the entry's fallback collected reading is
unchanged while its fallback trimmed reading drops to 0, and in a parent
whose other children are files still present the recomputed trimmed
aggregate decreases by the file's former trimmed size while the collected
aggregate is unchanged. -/
theorem delete_missing_file_accounting
    (m news m' : EMap) (name : String) (o : Nat) (t c : Option Nat)
    (hnd : (m.map Prod.fst).Nodup)
    (hlook : lookupE m name = some (.file o t c))
    (hnews : lookupE news name = none)
    (hok : deleteMissingEntries m news = .ok m') :
    (name ∈ filesToIgnoreL → lookupE m' name = none) ∧
    (name ∉ filesToIgnoreL →
      lookupE m' name =
        some (.file o (some 0) (if c.isNone then some (t.getD o) else c)) ∧
      collectedFb (.file o (some 0) (if c.isNone then some (t.getD o) else c)) =
        collectedFb (.file o t c) ∧
      trimmedFb (.file o (some 0) (if c.isNone then some (t.getD o) else c)) = 0) ∧
    (name ∉ filesToIgnoreL →
      (∀ p ∈ m, p.1 ≠ name →
        (∃ fo ft fc, p.2 = Entry.file fo ft fc) ∧ (lookupE news p.1).isSome) →
      sumTrimmedFb m' + trimmedFb (.file o t c) = sumTrimmedFb m ∧
        sumCollectedFb m' = sumCollectedFb m) := by
  have hmain := delete_lookup_missing_file m news m' name o t c hnd hlook hnews hok
  refine ⟨?_, ?_, ?_⟩
  · intro hig
    rw [if_pos hig] at hmain
    exact hmain
  · intro hig
    rw [if_neg hig] at hmain
    refine ⟨hmain, ?_, ?_⟩
    · cases c with
      | none => simp [collectedFb, trimmedFb, Entry.collected, Entry.trimmed, Entry.original]
      | some cv => simp [collectedFb, trimmedFb, Entry.collected, Entry.trimmed, Entry.original]
    · simp [trimmedFb, Entry.trimmed, Entry.original]
  · intro hig hothers
    exact delete_sums_missing_file m news m' name o t c hnd hlook hnews hig hothers hok

theorem delete_missing_file_accounting_witness :
    lookupE [("gone", Entry.file 100 (some 100) (some 100))] "gone" =
        some (Entry.file 100 (some 100) (some 100)) ∧
    deleteMissingEntries [("gone", Entry.file 100 (some 100) (some 100))] [] =
        .ok [("gone", Entry.file 100 (some 0) (some 100))] ∧
    sumTrimmedFb [("gone", Entry.file 100 (some 0) (some 100))] + 100 =
        sumTrimmedFb [("gone", Entry.file 100 (some 100) (some 100))] ∧
    sumCollectedFb [("gone", Entry.file 100 (some 0) (some 100))] =
        sumCollectedFb [("gone", Entry.file 100 (some 100) (some 100))] := by
  have h := delete_missing_file_accounting
    [("gone", Entry.file 100 (some 100) (some 100))] []
    [("gone", Entry.file 100 (some 0) (some 100))] "gone"
    100 (some 100) (some 100)
    (by decide) rfl rfl (by rfl)
  refine ⟨rfl, by rfl, ?_, ?_⟩
  · have := (h.2.2 (by decide) (by intro p hp hne; simp at hp; simp [hp] at hne)).1
    simpa [trimmedFb, Entry.trimmed, Entry.original] using this
  · exact (h.2.2 (by decide) (by intro p hp hne; simp at hp; simp [hp] at hne)).2

/-! Size measures used for the strong inductions below. -/

theorem sizeOf_entry_head_lt (n : String) (e : Entry) (rest : EMap) :
    sizeOf e < sizeOf ((n, e) :: rest) := by
  simp
  omega

theorem sizeOf_rest_lt (n : String) (e : Entry) (rest : EMap) :
    sizeOf rest < sizeOf ((n, e) :: rest) := by
  simp

theorem sizeOf_children_lt (o : Nat) (t c : Option Nat) (ch : EMap) :
    sizeOf ch < sizeOf (Entry.dir o t c ch) := by
  simp

theorem sumOrig_cons (p : String × Entry) (rest : EMap) :
    sumOrig (p :: rest) = p.2.original + sumOrig rest := by
  simp [sumOrig]

theorem sumTrimmedFb_cons (p : String × Entry) (rest : EMap) :
    sumTrimmedFb (p :: rest) = trimmedFb p.2 + sumTrimmedFb rest := by
  simp [sumTrimmedFb]

theorem sumCollectedFb_cons (p : String × Entry) (rest : EMap) :
    sumCollectedFb (p :: rest) = collectedFb p.2 + sumCollectedFb rest := by
  simp [sumCollectedFb]

/-! Structural lemmas about the invariant predicate. -/

theorem wfB_file (o : Nat) (t c : Option Nat) : wfB (.file o t c) = true := rfl

theorem wfB_dir_iff (o : Nat) (t c : Option Nat) (ch : EMap) :
    wfB (.dir o t c ch) = true ↔
      o = sumOrig ch ∧ t.getD o = sumTrimmedFb ch ∧
        c.getD (t.getD o) = sumCollectedFb ch ∧ wfMapB ch = true := by
  rw [wfB]
  simp [and_assoc]

theorem wfMapB_cons_iff (n : String) (e : Entry) (rest : EMap) :
    wfMapB ((n, e) :: rest) = true ↔ wfB e = true ∧ wfMapB rest = true := by
  rw [wfMapB]
  simp

theorem wfB_lookupE {m : EMap} {n : String} {e : Entry}
    (hm : wfMapB m = true) (h : lookupE m n = some e) : wfB e = true := by
  induction m with
  | nil => simp [lookupE] at h
  | cons p rest ih =>
    obtain ⟨k, v⟩ := p
    rw [wfMapB_cons_iff] at hm
    by_cases hk : k = n
    · subst hk
      simp [lookupE] at h
      exact h ▸ hm.1
    · simp only [lookupE, if_neg hk] at h
      exact ih hm.2 h

theorem wfMapB_setKey {m : EMap} (n : String) {v : Entry}
    (hm : wfMapB m = true) (hv : wfB v = true) : wfMapB (setKey m n v) = true := by
  induction m with
  | nil => simp [setKey, wfMapB, hv]
  | cons p rest ih =>
    obtain ⟨k, e⟩ := p
    rw [wfMapB_cons_iff] at hm
    by_cases hk : k = n
    · subst hk
      simp [setKey, wfMapB_cons_iff, hv, hm.2]
    · simp [setKey, hk, wfMapB_cons_iff, hm.1, ih hm.2]

theorem wfB_updateSizes_dir (o : Nat) (t c : Option Nat) {ch : EMap}
    (h : wfMapB ch = true) : wfB (updateSizes (.dir o t c ch)) = true := by
  rw [updateSizes, wfB_dir_iff]
  simp [h]

/-- Fuel-indexed form of the merge part of the invariant preservation. -/
theorem wf_merge_fuel : ∀ N : Nat,
    (∀ e old n f, sizeOf e ≤ N → wfMapB old = true → wfB e = true →
      wfMapB (mergeStep old n e f) = true) ∧
    (∀ news old f, sizeOf news ≤ N → wfMapB old = true → wfMapB news = true →
      wfMapB (mergeMaps old news f) = true) := by
  intro N
  induction N using Nat.strong_induction_on with
  | _ N ih =>
    constructor
    · intro e old n f hsz hold he
      rw [mergeStep]
      cases hlook : lookupE old n with
      | none =>
        apply wfMapB_setKey _ hold
        cases e with
        | file o t c => exact wfB_file o t c
        | dir o t c ch =>
          exact wfB_updateSizes_dir o t c ((wfB_dir_iff o t c ch).1 he).2.2.2
      | some oldE =>
        cases e with
        | dir no nt nc nch =>
          have hch : wfMapB nch = true := ((wfB_dir_iff no nt nc nch).1 he).2.2.2
          have hlt : sizeOf nch < N :=
            Nat.lt_of_lt_of_le (sizeOf_children_lt no nt nc nch) hsz
          cases oldE with
          | file fo ft fc =>
            apply wfMapB_setKey _ hold
            apply wfB_updateSizes_dir
            exact (ih _ hlt).2 nch [] f le_rfl rfl hch
          | dir o t c och =>
            have hoch : wfMapB och = true :=
              ((wfB_dir_iff o t c och).1 (wfB_lookupE hold hlook)).2.2.2
            apply wfMapB_setKey _ hold
            apply wfB_updateSizes_dir
            exact (ih _ hlt).2 nch och f le_rfl hoch hch
        | file no nt nc =>
          cases oldE with
          | dir _ _ _ _ => exact hold
          | file oo ot oc =>
            by_cases h1 : no = oo
            · simp only [if_pos h1]
              exact hold
            · simp only [if_neg h1]
              by_cases h2 : f = true ∧ nt.getD no = ot.getD oo
              · simp only [if_pos h2]
                exact hold
              · simp only [if_neg h2]
                exact wfMapB_setKey _ hold (wfB_file _ _ _)
    · intro news old f hsz hold hnews
      cases news with
      | nil => rw [mergeMaps]; exact hold
      | cons p rest =>
        obtain ⟨n, e⟩ := p
        rw [mergeMaps]
        rw [wfMapB_cons_iff] at hnews
        have hlt1 : sizeOf e < N :=
          Nat.lt_of_lt_of_le (sizeOf_entry_head_lt n e rest) hsz
        have hlt2 : sizeOf rest < N :=
          Nat.lt_of_lt_of_le (sizeOf_rest_lt n e rest) hsz
        have h1 : wfMapB (mergeStep old n e f) = true :=
          (ih _ hlt1).1 e old n f le_rfl hold hnews.1
        exact (ih _ hlt2).2 rest _ f le_rfl h1 hnews.2

/-- Fuel-indexed form of the deletion part of the invariant preservation. -/
theorem wf_delete_fuel : ∀ N : Nat,
    (∀ e n news e', sizeOf e ≤ N → wfB e = true →
      deleteEntryStep n e news = .ok (some e') → wfB e' = true) ∧
    (∀ m news m', sizeOf m ≤ N → wfMapB m = true →
      deleteMissingEntries m news = .ok m' → wfMapB m' = true) := by
  intro N
  induction N using Nat.strong_induction_on with
  | _ N ih =>
    constructor
    · intro e n news e' hsz he hok
      cases e with
      | dir o t c ch =>
        have hch : wfMapB ch = true := ((wfB_dir_iff o t c ch).1 he).2.2.2
        have hlt : sizeOf ch < N :=
          Nat.lt_of_lt_of_le (sizeOf_children_lt o t c ch) hsz
        rw [deleteEntryStep] at hok
        cases hlook : lookupE news n with
        | none =>
          simp only [hlook] at hok
          cases hdel : deleteMissingEntries ch [] with
          | error er => simp [hdel] at hok
          | ok ch' =>
            simp only [hdel, Except.ok.injEq, Option.some.injEq] at hok
            rw [← hok]
            exact wfB_updateSizes_dir o t c ((ih _ hlt).2 ch [] ch' le_rfl hch hdel)
        | some newE =>
          simp only [hlook] at hok
          cases newE with
          | dir no nt nc nch =>
            cases hdel : deleteMissingEntries ch nch with
            | error er => simp [hdel] at hok
            | ok ch' =>
              simp only [hdel, Except.ok.injEq, Option.some.injEq] at hok
              rw [← hok]
              exact wfB_updateSizes_dir o t c ((ih _ hlt).2 ch nch ch' le_rfl hch hdel)
          | file _ _ _ => simp at hok
      | file o t c =>
        rw [deleteEntryStep] at hok
        cases hlook : lookupE news n with
        | none =>
          simp only [hlook] at hok
          by_cases hig : n ∈ filesToIgnoreL
          · simp [if_pos hig] at hok
          · simp only [if_neg hig, Except.ok.injEq, Option.some.injEq] at hok
            rw [← hok]
            exact wfB_file _ _ _
        | some newE =>
          simp only [hlook, Except.ok.injEq, Option.some.injEq] at hok
          rw [← hok]
          exact he
    · intro m news m' hsz hm hok
      cases m with
      | nil =>
        rw [deleteMissingEntries] at hok
        cases hok
        rfl
      | cons p rest =>
        obtain ⟨n, e⟩ := p
        rw [wfMapB_cons_iff] at hm
        have hlt1 : sizeOf e < N :=
          Nat.lt_of_lt_of_le (sizeOf_entry_head_lt n e rest) hsz
        have hlt2 : sizeOf rest < N :=
          Nat.lt_of_lt_of_le (sizeOf_rest_lt n e rest) hsz
        rw [deleteMissingEntries] at hok
        cases hstep : deleteEntryStep n e news with
        | error er =>
          simp only [hstep] at hok
          exact Except.noConfusion hok
        | ok r =>
          simp only [hstep] at hok
          cases hrest : deleteMissingEntries rest news with
          | error er =>
            simp only [hrest] at hok
            exact Except.noConfusion hok
          | ok rest' =>
            simp only [hrest, Except.ok.injEq] at hok
            have hwrest : wfMapB rest' = true :=
              (ih _ hlt2).2 rest news rest' le_rfl hm.2 hrest
            cases r with
            | none =>
              rw [← hok]
              exact hwrest
            | some e' =>
              rw [← hok, wfMapB_cons_iff]
              exact ⟨(ih _ hlt1).1 e n news e' le_rfl hm.1 hstep, hwrest⟩

/-! Lemmas about the Snapshot Builder output. -/

/-- A builder-produced entry: no /T, no /C, and the sum invariant holds. -/
def plainEntry (e : Entry) : Prop :=
  e.trimmed = none ∧ e.collected = none ∧ wfB e = true

/-- A builder-produced children map. -/
def plainMap (m : EMap) : Prop := ∀ p ∈ m, plainEntry p.2

theorem plain_sums (m : EMap) (h : plainMap m) :
    sumTrimmedFb m = sumOrig m ∧ sumCollectedFb m = sumOrig m ∧ wfMapB m = true := by
  induction m with
  | nil => exact ⟨rfl, rfl, rfl⟩
  | cons p rest ih =>
    obtain ⟨ht, hc, hw⟩ := h p (List.mem_cons_self _ _)
    obtain ⟨iht, ihc, ihw⟩ := ih (fun q hq => h q (List.mem_cons_of_mem _ hq))
    refine ⟨?_, ?_, ?_⟩
    · rw [sumTrimmedFb_cons, sumOrig_cons, iht]
      simp [trimmedFb, ht]
    · rw [sumCollectedFb_cons, sumOrig_cons, ihc]
      simp [collectedFb, trimmedFb, hc, ht]
    · obtain ⟨n, e⟩ := p
      rw [wfMapB_cons_iff]
      exact ⟨hw, ihw⟩

theorem sizeOf_fs_children_lt (ch : List (String × FSNode)) :
    sizeOf ch < sizeOf (FSNode.dir ch) := by
  simp

theorem sizeOf_fs_head_lt (n : String) (c : FSNode) (rest : List (String × FSNode)) :
    sizeOf c < sizeOf ((n, c) :: rest) := by
  simp
  omega

theorem sizeOf_fs_rest_lt (n : String) (c : FSNode) (rest : List (String × FSNode)) :
    sizeOf rest < sizeOf ((n, c) :: rest) := by
  simp

/-- Fuel-indexed form of the builder part of the invariant preservation:
the Snapshot Builder only produces plain entries. -/
theorem builder_fuel : ∀ N : Nat,
    (∀ fs path st, sizeOf fs ≤ N → plainEntry (getDirSummary path st fs).1) ∧
    (∀ ch path st, sizeOf ch ≤ N → plainMap (getDirChildren path st ch).1) := by
  intro N
  induction N using Nat.strong_induction_on with
  | _ N ih =>
    constructor
    · intro fs path st hsz
      cases fs with
      | file sz => exact ⟨rfl, rfl, rfl⟩
      | dir ch =>
        rw [getDirSummary]
        by_cases hmem : path ∈ st
        · simp only [if_pos hmem]
          exact ⟨rfl, rfl, by decide⟩
        · simp only [if_neg hmem]
          have hlt : sizeOf ch < N :=
            Nat.lt_of_lt_of_le (sizeOf_fs_children_lt ch) hsz
          have hplain := (ih _ hlt).2 ch path (path :: st) le_rfl
          obtain ⟨hts, hcs, hwf⟩ := plain_sums _ hplain
          refine ⟨rfl, rfl, ?_⟩
          rw [wfB_dir_iff]
          exact ⟨rfl, by simp [hts], by simp [hcs], hwf⟩
    · intro ch path st hsz
      cases ch with
      | nil =>
        intro p hp
        simp [getDirChildren] at hp
      | cons q rest =>
        obtain ⟨n, c⟩ := q
        have hlt1 : sizeOf c < N :=
          Nat.lt_of_lt_of_le (sizeOf_fs_head_lt n c rest) hsz
        have hlt2 : sizeOf rest < N :=
          Nat.lt_of_lt_of_le (sizeOf_fs_rest_lt n c rest) hsz
        intro p hp
        rw [getDirChildren] at hp
        rcases List.mem_cons.1 hp with h1 | h2
        · rw [h1]
          exact (ih _ hlt1).1 c (path ++ [n]) st le_rfl
        · exact (ih _ hlt2).2 rest path _ le_rfl p h2

/-- C8: every operation preserves the directory-sum invariant - the
Snapshot Builder only produces invariant-satisfying trees, the merge of
two invariant-satisfying summaries satisfies it for either is_final value,
and a successful deletion pass preserves it. -/
theorem operations_preserve_sum_invariant :
    (∀ fs path st, wfB (getDirSummary path st fs).1 = true) ∧
    (∀ old news f, wfMapB old = true → wfMapB news = true →
      wfMapB (mergeMaps old news f) = true) ∧
    (∀ old news old', wfMapB old = true → deleteMissingEntries old news = .ok old' →
      wfMapB old' = true) := by
  refine ⟨?_, ?_, ?_⟩
  · intro fs path st
    exact ((builder_fuel (sizeOf fs)).1 fs path st le_rfl).2.2
  · intro old news f h1 h2
    exact (wf_merge_fuel (sizeOf news)).2 news old f le_rfl h1 h2
  · intro old news old' h1 h2
    exact (wf_delete_fuel (sizeOf old)).2 old news old' le_rfl h1 h2

theorem operations_preserve_sum_invariant_witness :
    wfB (getDirSummary [] [] (FSNode.dir [("f", FSNode.file 3)])).1 = true ∧
    wfMapB (mergeMaps [("a", Entry.file 2 none none)]
      [("a", Entry.file 9 none none), ("b", Entry.dir 4 none none
        [("y", Entry.file 4 none none)])] true) = true ∧
    wfMapB [("gone", Entry.file 100 (some 0) (some 100))] = true := by
  refine ⟨operations_preserve_sum_invariant.1 _ _ _, ?_, ?_⟩
  · exact operations_preserve_sum_invariant.2.1 _ _ true (by decide) (by decide)
  · exact operations_preserve_sum_invariant.2.2
      [("gone", Entry.file 100 (some 100) (some 100))] []
      [("gone", Entry.file 100 (some 0) (some 100))] (by decide) (by rfl)

/-! View lemmas used for the self-merge idempotence claim. -/

theorem viewEntry_original (e : Entry) : (viewEntry e).original = e.original := by
  cases e <;> rfl

theorem trimmedFb_viewEntry (e : Entry) : trimmedFb (viewEntry e) = trimmedFb e := by
  cases e <;> simp [viewEntry, trimmedFb, Entry.trimmed, Entry.original]

theorem collectedFb_viewEntry (e : Entry) : collectedFb (viewEntry e) = collectedFb e := by
  cases e <;>
    simp [viewEntry, collectedFb, trimmedFb, Entry.trimmed, Entry.collected, Entry.original]

theorem viewMap_cons (n : String) (e : Entry) (rest : EMap) :
    viewMap ((n, e) :: rest) = (n, viewEntry e) :: viewMap rest := by
  rw [viewMap]

theorem sumOrig_viewMap (m : EMap) : sumOrig (viewMap m) = sumOrig m := by
  induction m with
  | nil => rfl
  | cons p rest ih =>
    obtain ⟨n, e⟩ := p
    rw [viewMap_cons, sumOrig_cons, sumOrig_cons, ih, viewEntry_original]

theorem sumTrimmedFb_viewMap (m : EMap) : sumTrimmedFb (viewMap m) = sumTrimmedFb m := by
  induction m with
  | nil => rfl
  | cons p rest ih =>
    obtain ⟨n, e⟩ := p
    rw [viewMap_cons, sumTrimmedFb_cons, sumTrimmedFb_cons, ih, trimmedFb_viewEntry]

theorem sumCollectedFb_viewMap (m : EMap) : sumCollectedFb (viewMap m) = sumCollectedFb m := by
  induction m with
  | nil => rfl
  | cons p rest ih =>
    obtain ⟨n, e⟩ := p
    rw [viewMap_cons, sumCollectedFb_cons, sumCollectedFb_cons, ih, collectedFb_viewEntry]

theorem viewMap_lookup {a b : EMap} (h : viewMap a = viewMap b) (n : String) :
    (lookupE a n).map viewEntry = (lookupE b n).map viewEntry := by
  induction a generalizing b with
  | nil =>
    cases b with
    | nil => rfl
    | cons q brest => rw [viewMap, viewMap_cons] at h; exact List.noConfusion h
  | cons p arest ih =>
    obtain ⟨k, e⟩ := p
    cases b with
    | nil => rw [viewMap_cons, viewMap] at h; exact List.noConfusion h
    | cons q brest =>
      obtain ⟨k', e'⟩ := q
      rw [viewMap_cons, viewMap_cons, List.cons.injEq, Prod.mk.injEq] at h
      obtain ⟨⟨hk, he⟩, hrest⟩ := h
      subst hk
      by_cases hkn : k = n
      · simp [lookupE, hkn, he]
      · simp only [lookupE, if_neg hkn]
        exact ih hrest

theorem viewMap_setKey {m : EMap} {n : String} {e' v : Entry}
    (hl : lookupE m n = some e') (hv : viewEntry v = viewEntry e') :
    viewMap (setKey m n v) = viewMap m := by
  induction m with
  | nil => simp [lookupE] at hl
  | cons p rest ih =>
    obtain ⟨k, e⟩ := p
    by_cases hk : k = n
    · subst hk
      simp [lookupE] at hl
      subst hl
      simp [setKey, viewMap_cons, hv]
    · simp only [lookupE, if_neg hk] at hl
      simp [setKey, hk, viewMap_cons, ih hl]

/-! Lemmas about the recursive distinct-keys predicate. -/

theorem ndkAllM_cons_iff (n : String) (e : Entry) (rest : EMap) :
    ndkAllM ((n, e) :: rest) = true ↔
      keysHas rest n = false ∧ ndkAllE e = true ∧ ndkAllM rest = true := by
  rw [ndkAllM]
  simp [and_assoc]

theorem keysHas_false_not_mem {m : EMap} {n : String}
    (h : keysHas m n = false) : n ∉ m.map Prod.fst := by
  induction m with
  | nil => simp
  | cons p rest ih =>
    obtain ⟨k, e⟩ := p
    rw [keysHas] at h
    simp only [Bool.or_eq_false_iff, beq_eq_false_iff_ne] at h
    simp only [List.map_cons, List.mem_cons]
    rintro (h1 | h2)
    · exact h.1 h1.symm
    · exact ih h.2 h2

theorem ndkAllM_keys_nodup {m : EMap} (h : ndkAllM m = true) :
    (m.map Prod.fst).Nodup := by
  induction m with
  | nil => simp
  | cons p rest ih =>
    obtain ⟨k, e⟩ := p
    rw [ndkAllM_cons_iff] at h
    rw [List.map_cons, List.nodup_cons]
    exact ⟨keysHas_false_not_mem h.1, ih h.2.2⟩

theorem wfB_of_mem {m : EMap} {p : String × Entry}
    (hm : wfMapB m = true) (hp : p ∈ m) : wfB p.2 = true := by
  induction m with
  | nil => simp at hp
  | cons q rest ih =>
    obtain ⟨k, e⟩ := q
    rw [wfMapB_cons_iff] at hm
    rcases List.mem_cons.1 hp with h1 | h2
    · rw [h1]; exact hm.1
    · exact ih hm.2 h2

/-- Fuel-indexed form of the self-merge idempotence: merging a summary
into a view-equal, invariant-satisfying old summary changes no size view. -/
theorem view_merge_fuel : ∀ N : Nat,
    (∀ e old n, sizeOf e ≤ N →
      (∃ e', lookupE old n = some e' ∧ viewEntry e' = viewEntry e ∧ wfB e' = true) →
      ndkAllE e = true →
      viewMap (mergeStep old n e false) = viewMap old) ∧
    (∀ news old, sizeOf news ≤ N →
      (∀ p ∈ news, ∃ e', lookupE old p.1 = some e' ∧
        viewEntry e' = viewEntry p.2 ∧ wfB e' = true) →
      ndkAllM news = true →
      viewMap (mergeMaps old news false) = viewMap old) := by
  intro N
  induction N using Nat.strong_induction_on with
  | _ N ih =>
    constructor
    · intro e old n hsz hex hnde
      obtain ⟨e', hlook, hview, hwf⟩ := hex
      rw [mergeStep]
      simp only [hlook]
      cases e with
      | file no nt nc =>
        cases e' with
        | dir _ _ _ _ => simp [viewEntry] at hview
        | file oo ot oc =>
          simp only [viewEntry, Entry.file.injEq, Option.some.injEq] at hview
          simp only [if_pos hview.1.symm]
      | dir no nt nc nch =>
        cases e' with
        | file _ _ _ => simp [viewEntry] at hview
        | dir o' t' c' och =>
          simp only [viewEntry, Entry.dir.injEq, Option.some.injEq] at hview
          obtain ⟨ho, ht, hc, hch⟩ := hview
          have hndch : ndkAllM nch = true := hnde
          have hwf' := (wfB_dir_iff o' t' c' och).1 hwf
          have hlt : sizeOf nch < N :=
            Nat.lt_of_lt_of_le (sizeOf_children_lt no nt nc nch) hsz
          have hmm : viewMap (mergeMaps och nch false) = viewMap och := by
            apply (ih _ hlt).2 nch och le_rfl ?_ hndch
            intro p hp
            obtain ⟨pn, pe⟩ := p
            have hpl : lookupE nch pn = some pe :=
              lookupE_of_mem_nodup (ndkAllM_keys_nodup hndch) hp
            have := viewMap_lookup hch pn
            rw [hpl] at this
            obtain ⟨e'', he1, he2⟩ := Option.map_eq_some'.1 this
            exact ⟨e'', he1, he2, wfB_lookupE hwf'.2.2.2 he1⟩
          apply viewMap_setKey hlook
          rw [updateSizes]
          have hso : sumOrig (mergeMaps och nch false) = sumOrig och := by
            rw [← sumOrig_viewMap, hmm, sumOrig_viewMap]
          have hst : sumTrimmedFb (mergeMaps och nch false) = sumTrimmedFb och := by
            rw [← sumTrimmedFb_viewMap, hmm, sumTrimmedFb_viewMap]
          have hsc : sumCollectedFb (mergeMaps och nch false) = sumCollectedFb och := by
            rw [← sumCollectedFb_viewMap, hmm, sumCollectedFb_viewMap]
          rw [viewEntry, viewEntry]
          simp only [Option.getD_some]
          rw [hso, hst, hsc, hmm]
          rw [← hwf'.1, ← hwf'.2.1, ← hwf'.2.2.1]
    · intro news old hsz hex hnd
      cases news with
      | nil => rw [mergeMaps]
      | cons p rest =>
        obtain ⟨n, e⟩ := p
        rw [ndkAllM_cons_iff] at hnd
        rw [mergeMaps]
        have hlt1 : sizeOf e < N :=
          Nat.lt_of_lt_of_le (sizeOf_entry_head_lt n e rest) hsz
        have hlt2 : sizeOf rest < N :=
          Nat.lt_of_lt_of_le (sizeOf_rest_lt n e rest) hsz
        have hstep : viewMap (mergeStep old n e false) = viewMap old :=
          (ih _ hlt1).1 e old n le_rfl (hex (n, e) (List.mem_cons_self _ _)) hnd.2.1
        have hrest : viewMap (mergeMaps (mergeStep old n e false) rest false) =
            viewMap (mergeStep old n e false) := by
          apply (ih _ hlt2).2 rest _ le_rfl ?_ hnd.2.2
          intro p hp
          obtain ⟨pn, pe⟩ := p
          have hne : pn ≠ n := by
            intro hh
            subst hh
            exact absurd (List.mem_map.2 ⟨(pn, pe), hp, rfl⟩)
              (keysHas_false_not_mem hnd.1)
          obtain ⟨e', h1, h2, h3⟩ := hex (pn, pe) (List.mem_cons_of_mem _ hp)
          exact ⟨e', by rw [mergeStep_lookup_ne old n e false pn hne]; exact h1, h2, h3⟩
        rw [hrest, hstep]

/-- C9: merging a well-formed summary into itself with is_final false
leaves every size field of every node unchanged: the canonical size view
(each field read through its documented fallback) of the merged summary
equals that of the original. -/
theorem merge_self_preserves_sizes (m : EMap)
    (hwf : wfMapB m = true) (hnd : ndkAllM m = true) :
    viewMap (mergeMaps m m false) = viewMap m := by
  apply (view_merge_fuel (sizeOf m)).2 m m le_rfl ?_ hnd
  intro p hp
  obtain ⟨pn, pe⟩ := p
  exact ⟨pe, lookupE_of_mem_nodup (ndkAllM_keys_nodup hnd) hp, rfl,
    wfB_of_mem hwf hp⟩

theorem merge_self_preserves_sizes_witness :
    viewMap (mergeMaps
      [("", Entry.dir 30 (some 30) (some 30)
        [("a", Entry.file 10 none none), ("d", Entry.dir 20 none none
          [("b", Entry.file 20 (some 20) none)])])]
      [("", Entry.dir 30 (some 30) (some 30)
        [("a", Entry.file 10 none none), ("d", Entry.dir 20 none none
          [("b", Entry.file 20 (some 20) none)])])] false) =
    viewMap [("", Entry.dir 30 (some 30) (some 30)
      [("a", Entry.file 10 none none), ("d", Entry.dir 20 none none
        [("b", Entry.file 20 (some 20) none)])])] :=
  merge_self_preserves_sizes _ (by decide) (by decide)

/-! The Snapshot Builder entry point: error behavior and root key. -/

/-- C10: build_summary_json fails with the not-found error exactly when
the input path does not exist, fails with the invalid-input error exactly
when the path exists but is a file (a directory input never raises, so
nested files never raise), and on a directory returns a summary rooted at
the empty-string key. -/
theorem build_summary_errors (target : Option FSNode) (st : List (List String)) :
    (buildSummaryJson target st = .error .notFound ↔ target = none) ∧
    (buildSummaryJson target st = .error .invalidInput ↔
      ∃ sz, target = some (.file sz)) ∧
    (∀ ch, target = some (.dir ch) →
      ∃ e st', buildSummaryJson target st = .ok ([("", e)], st')) := by
  cases target with
  | none =>
    refine ⟨by simp [buildSummaryJson], by simp [buildSummaryJson], ?_⟩
    intro ch h
    exact Option.noConfusion h
  | some fs =>
    cases fs with
    | file sz =>
      refine ⟨by simp [buildSummaryJson], ?_, ?_⟩
      · constructor
        · intro _
          exact ⟨sz, rfl⟩
        · intro _
          rfl
      · intro ch h
        simp at h
    | dir ch0 =>
      refine ⟨by simp [buildSummaryJson], by simp [buildSummaryJson], ?_⟩
      intro ch h
      exact ⟨(getDirSummary [] st (.dir ch0)).1, (getDirSummary [] st (.dir ch0)).2, rfl⟩

theorem build_summary_errors_witness :
    buildSummaryJson none [] = .error .notFound ∧
    buildSummaryJson (some (.file 4)) [] = .error .invalidInput ∧
    ∃ e st', buildSummaryJson (some (.dir [("x", .file 2)])) [] =
      .ok ([("", e)], st') :=
  ⟨(build_summary_errors none []).1.2 rfl,
   (build_summary_errors (some (.file 4)) []).2.1.2 ⟨4, rfl⟩,
   (build_summary_errors (some (.dir [("x", .file 2)])) []).2.2 _ rfl⟩

/-- A one-file directory used to exercise the builder twice in a process. -/
def fsC3 : FSNode := .dir [("f", .file 5)]

/-- C3 (evaluation of the defect): the all_dirs set is a function-default
mutable set the source shares across calls, so after one invocation of
build_summary_json the directory's canonical path stays in the set and a
second invocation on the unchanged directory returns a different tree -
a childless root of size 0 instead of the real summary. -/
theorem builder_shared_visited_set_bug :
    buildSummaryJson (some fsC3) [] =
      .ok ([("", .dir 5 none none [("f", .file 5 none none)])], [[]]) ∧
    buildSummaryJson (some fsC3) [[]] =
      .ok ([("", .dir 0 none none [])], [[]]) ∧
    ([("", Entry.dir 5 none none [("f", Entry.file 5 none none)])] : EMap) ≠
      [("", Entry.dir 0 none none [])] := by
  refine ⟨rfl, rfl, ?_⟩
  intro h
  have h2 := congrArg (fun m => (lookupE m "").map Entry.original) h
  simp [lookupE, Entry.original] at h2

/-! The Sequencer scenario of the specification (three snapshots
{a:10}, {a:10,b:20} and the final live state {a:10,b:25,c:5}). -/

def c1s1 : EMap := [("", .dir 10 none none [("a", .file 10 none none)])]

def c1s2 : EMap :=
  [("", .dir 30 none none [("a", .file 10 none none), ("b", .file 20 none none)])]

def c1live : EMap :=
  [("", .dir 40 none none
    [("a", .file 10 none none), ("b", .file 25 none none), ("c", .file 5 none none)])]

/-- C1 (counterexample): on the specification's own scenario the Sequencer
returns total_collected_bytes 30 - the root's collected_size_bytes before
the terminal is_final merge and deletion pass - while the merged root's
collected_size_bytes after the final two passes is 60; the returned total
is neither that post-pass value nor the 40 the claim expects. -/
theorem sequencer_total_counterexample :
    (mergeSummaries [c1s1, c1s2] c1live).map Prod.fst = .ok 30 ∧
    (mergeSummaries [c1s1, c1s2] c1live).map
      (fun r => (lookupE r.2 "").map Entry.collected) = .ok (some (some 60)) ∧
    (30 : Nat) ≠ 60 ∧ (30 : Nat) ≠ 40 :=
  ⟨rfl, rfl, by decide, by decide⟩

/-- C1 (amended): the returned total_collected_bytes is read from the
root's collected_size_bytes of the fold of the historical summaries,
before the terminal is_final merge and the deletion pass run (it is 0
when there is no summary at all); on the scenario it equals 30. -/
theorem sequencer_total_amended :
    (∀ summaries live total m,
      mergeSummaries summaries live = .ok (total, m) →
      (historicalMerge summaries = [] ∧ total = 0) ∨
      (lookupE (historicalMerge summaries) "").bind Entry.collected = some total) ∧
    (mergeSummaries [c1s1, c1s2] c1live).map Prod.fst = .ok 30 := by
  constructor
  · intro ss live total m hok
    rw [mergeSummaries] at hok
    by_cases hemp : (historicalMerge ss).isEmpty
    · left
      simp only [hemp, if_pos] at hok
      cases hdel : deleteMissingEntries (mergeMaps (historicalMerge ss) live true) live with
      | error er => simp [hdel] at hok
      | ok final =>
        simp only [hdel, Except.ok.injEq, Prod.mk.injEq] at hok
        exact ⟨List.isEmpty_iff.1 hemp, hok.1.symm⟩
    · right
      cases hlook : lookupE (historicalMerge ss) "" with
      | none => simp [hemp, hlook] at hok
      | some e =>
        cases hcol : e.collected with
        | none => simp [hemp, hlook, hcol] at hok
        | some cv =>
          cases hdel : deleteMissingEntries (mergeMaps (historicalMerge ss) live true) live with
          | error er => simp [hemp, hlook, hcol, hdel] at hok
          | ok final =>
            simp [hemp, hlook, hcol, hdel] at hok
            rw [Option.bind_eq_some]
            refine ⟨e, rfl, ?_⟩
            rw [hcol]
            exact congrArg some hok.1
  · rfl

theorem sequencer_total_amended_witness :
    (historicalMerge [c1s1, c1s2] = [] ∧ (30 : Nat) = 0) ∨
    (lookupE (historicalMerge [c1s1, c1s2]) "").bind Entry.collected = some 30 :=
  sequencer_total_amended.1 [c1s1, c1s2] c1live 30
    [("", Entry.dir 40 (some 40) (some 60)
      [("a", Entry.file 10 none none), ("b", Entry.file 25 (some 25) (some 45)),
       ("c", Entry.file 5 none none)])] rfl

end ResultTools
